import Mathlib

/-!
Verification of the future-utility combinators in `core/future-util.hh`
(parallel_for_each, do_until_continued / do_until, keep_doing, do_for_each,
when_all) over a shallow embedding.

The future/promise primitive itself (`core/future.hh`) is not part of the
sources; its contract is modelled from the specification (§6/§7): a
completion handle carries an availability flag ("is it already resolved when
inspected") and an eventual result (success or failure); `then` runs its
continuation on success and propagates a failure unchanged, skipping the
continuation; `then_wrapped` runs its continuation on either outcome, handing
it the resolved handle; a promise is written at most once.

Errors are an opaque type `ε`; element types are an opaque `σ`.  An action
invocation either throws a synchronous exception before any handle exists, or
returns a handle; for loop combinators the i-th invocation's behaviour is
given by an oracle `acts : Nat → Act ε`, and iteration that the C++ expresses
as recursion through continuations is expressed with explicit fuel.
-/

deriving instance DecidableEq for Except

namespace FutureUtil

/-- Modelled from the spec: §6's completion handle ("future") from the missing
`core/future.hh` — `avail` is the non-blocking "already resolved" query at the
moment the combinator inspects it, `res` the eventual outcome (success value
or opaque failure), which never changes once resolved. -/
structure Fut (ε α : Type) where
  avail : Bool
  res : Except ε α
deriving DecidableEq, Repr

/-- One invocation of an action: either it throws a synchronous exception
before any handle is obtained, or it returns a completion handle. -/
inductive Act (ε : Type) where
  | throwSync : ε → Act ε
  | ret : Fut ε Unit → Act ε
deriving DecidableEq, Repr

/-- Does this invocation return a handle (as opposed to throwing)? -/
def Act.isRet : Act ε → Bool
  | .throwSync _ => false
  | .ret _ => true

/-- The eventual result of the handle an invocation returns, if any. -/
def Act.resOf : Act ε → Option (Except ε Unit)
  | .throwSync _ => none
  | .ret f => some f.res

/-- Outcome of calling a combinator's entry point: either a synchronous
exception escaped the entry point itself, or a handle was returned, described
by its availability at return time and its eventual result. -/
inductive CombOutcome (ε : Type) where
  | syncThrow : ε → CombOutcome ε
  | result : Fut ε Unit → CombOutcome ε
deriving DecidableEq, Repr

/-- Modelled from the spec: §6's continuation registration (`then`) of the
missing `core/future.hh` — on success the continuation runs and its handle's
outcome is the result; a failure is propagated unchanged to the result and
the continuation is skipped (§7: the failure is "the sole value delivered to
its caller, wrapped unchanged").  The result is already resolved exactly when
the input was already resolved and, on success, the continuation's handle
was. -/
def fthen (f : Fut ε α) (g : Unit → Fut ε β) : Fut ε β :=
  match f.res with
  | .error e => ⟨f.avail, .error e⟩
  | .ok _ => ⟨f.avail && (g ()).avail, (g ()).res⟩

/-- Modelled from the spec: §6's "observe regardless of success/failure"
registration (`then_wrapped`) of the missing `core/future.hh` — the
continuation always runs, receiving the original handle, resolved, with its
outcome unchanged. -/
def thenWrapped (f : Fut ε α) (g : Fut ε α → Fut ε β) : Fut ε β :=
  ⟨f.avail && (g ⟨true, f.res⟩).avail, (g ⟨true, f.res⟩).res⟩

/-- Modelled from the spec: §6's already-resolved successful handle
(`make_ready_future`). -/
def make_ready_future (a : α) : Fut ε α := ⟨true, .ok a⟩

/-- The handle a resolved input occupies in `when_all`'s output tuple: the
original handle object, now resolved, outcome unchanged. -/
def resolvedCopy (f : Fut ε α) : Fut ε α := ⟨true, f.res⟩

/-! ## do_for_each

```cpp
template<typename Iterator, typename AsyncAction>
static inline
future<> do_for_each(Iterator begin, Iterator end, AsyncAction&& action) {
    while (begin != end) {
        auto f = action(*begin++);
        if (!f.available()) {
            return f.then([action = ..., begin = ..., end = ...] () mutable {
                return do_for_each(std::move(begin), std::move(end), ...);
            });
        }
    }
    return make_ready_future<>();
}
```

Note the loop inspects only `available()`: an already-available handle lets
the loop continue whether it succeeded or failed — there is no `f.failed()`
check, so an available failure is dropped.  A not-yet-available handle gets
the continuation; if that handle fails, `then` skips the continuation and
propagates the failure into the returned future.

The embedding returns the list of elements the action was invoked on together
with the outcome.  `sync` records whether we are still inside the original
entry call (`true`) or inside a re-entry from a registered continuation
(`false`); a synchronous throw escapes the entry point only in the former
case (in the latter it surfaces inside scheduler-run continuation machinery
of the unmodelled primitive; we render it as a failed result — no claim
exercises that path). -/
def do_for_each_go (act : σ → Act ε) (sync : Bool) : List σ → List σ × CombOutcome ε
  | [] => ([], .result (make_ready_future ()))
  | x :: xs =>
    match act x with
    | .throwSync e =>
      ([x], if sync then .syncThrow e else .result ⟨true, .error e⟩)
    | .ret f =>
      if f.avail then
        -- available: continue the walk, discarding f (even a failed one)
        let r := do_for_each_go act sync xs
        (x :: r.1, r.2)
      else
        -- return f.then([..]{ return do_for_each(...); })
        match f.res with
        | .error e => ([x], .result ⟨false, .error e⟩)
        | .ok _ =>
          let r := do_for_each_go act false xs
          (x :: r.1,
            match r.2 with
            | .syncThrow e => .result ⟨false, .error e⟩
            | .result g => .result ⟨false, g.res⟩)

/-- `do_for_each(begin, end, action)`: entry point, synchronous context. -/
def do_for_each (act : σ → Act ε) (xs : List σ) : List σ × CombOutcome ε :=
  do_for_each_go act true xs

/-! ## parallel_for_each

```cpp
template <typename Iterator, typename Func>
inline future<>
parallel_for_each(Iterator begin, Iterator end, Func&& func) {
    auto ret = make_ready_future<>();
    while (begin != end) {
        auto f = func(*begin++).then([ret = std::move(ret)] () mutable {
            return std::move(ret);
        });
        ret = std::move(f);
    }
    return ret;
}
```

Every element's action is started in the loop, in program order, before the
caller can wait on anything; the join is `ret' = f.then(λ(){ return ret; })`.
-/
def parallel_for_each_go (act : σ → Act ε) : List σ → Fut ε Unit → List σ × CombOutcome ε
  | [], ret => ([], .result ret)
  | x :: xs, ret =>
    match act x with
    | .throwSync e => ([x], .syncThrow e)
    | .ret f =>
      let r := parallel_for_each_go act xs (fthen f (fun _ => ret))
      (x :: r.1, r.2)

/-- `parallel_for_each(begin, end, func)`: the running join starts as an
already-successful handle. -/
def parallel_for_each (act : σ → Act ε) (xs : List σ) : List σ × CombOutcome ε :=
  parallel_for_each_go act xs (make_ready_future ())

/-! ## do_until_continued / do_until

```cpp
template<typename AsyncAction, typename StopCondition>
static inline
void do_until_continued(StopCondition&& stop_cond, AsyncAction&& action, promise<> p) {
    while (!stop_cond()) {
        auto&& f = action();
        if (!f.available()) {
            f.then([action = ..., stop_cond = ..., p = std::move(p)]() mutable {
                do_until_continued(stop_cond, action, std::move(p));
            });
            return;
        }
        if (f.failed()) {
            f.forward_to(std::move(p));
            return;
        }
    }
    p.set_value();
}
```

Predicate evaluations and action invocations alternate strictly, so both are
indexed by the same counter `i` (number of invocations performed so far):
iteration `i` evaluates `cond i` and, if false, performs invocation `i`.
`fuel` bounds the number of iterations modelled (the C++ may loop forever);
`sync` is as for `do_for_each_go`.  The result records the final counter
(= total number of action invocations), the writes performed on the sink
`p`, and the exception that escaped the original entry point, if any.

Writes to `p` are `p.set_value()` when the predicate turns true and
`f.forward_to(p)` for an available failure.  When a not-yet-available handle
fails, `then` (see `fthen`) skips the continuation — `p`, captured by the
continuation, is dropped unwritten and the loop's handle never resolves. -/
inductive SinkWrite (ε : Type) where
  | success : SinkWrite ε
  | failure : ε → SinkWrite ε
deriving DecidableEq, Repr

/-- One run of `do_until_continued` and its continuation re-entries, starting
at counter `i`: `(final counter, sink writes, escaped exception)`, or `none`
when `fuel` iterations did not suffice. -/
def do_until_continued (cond : Nat → Bool) (acts : Nat → Act ε) :
    Nat → Nat → Bool → Option (Nat × List (SinkWrite ε) × Option ε)
  | 0, _, _ => none
  | fuel + 1, i, sync =>
    if cond i then
      some (i, [.success], none)          -- p.set_value()
    else
      match acts i with
      | .throwSync e =>
        -- no try/catch: escapes do_until_continued (and, when sync, do_until)
        some (i + 1, [], if sync then some e else none)
      | .ret f =>
        if f.avail then
          match f.res with
          | .error e => some (i + 1, [.failure e], none)   -- f.forward_to(p)
          | .ok _ => do_until_continued cond acts fuel (i + 1) sync
        else
          match f.res with
          | .ok _ => do_until_continued cond acts fuel (i + 1) false
          | .error _ => some (i + 1, [], none)  -- then skips; p dropped unwritten

/-- Outcome of `do_until` as seen through the handle of the promise it
creates: a synchronous exception escaped the entry point, or the handle
resolves to the sink's single write, or the sink is never written. -/
inductive DUOutcome (ε : Type) where
  | thrown : ε → DUOutcome ε
  | resolved : Except ε Unit → DUOutcome ε
  | neverResolved : DUOutcome ε
deriving DecidableEq, Repr

/-- ```cpp
template<typename AsyncAction, typename StopCondition>
static inline
future<> do_until(StopCondition&& stop_cond, AsyncAction&& action) {
    promise<> p;
    auto f = p.get_future();
    do_until_continued(..., std::move(p));
    return f;
}
```
Returns `(number of action invocations, outcome)`. -/
def do_until (fuel : Nat) (cond : Nat → Bool) (acts : Nat → Act ε) :
    Option (Nat × DUOutcome ε) :=
  (do_until_continued cond acts fuel 0 true).map fun r =>
    (r.1,
      match r.2.2 with
      | some e => .thrown e
      | none =>
        match r.2.1 with
        | .success :: _ => .resolved (.ok ())
        | .failure e :: _ => .resolved (.error e)
        | [] => .neverResolved)

/-! ## keep_doing

```cpp
template<typename AsyncAction>
static inline
future<> keep_doing(AsyncAction&& action) {
    try {
        return action().then([action = std::forward<AsyncAction>(action)] () mutable {
            return keep_doing(std::forward<AsyncAction>(action));
        });
    } catch (...) {
        return make_exception_future(std::current_exception());
    }
}
```

A synchronous throw from `action()` is caught and becomes an already-resolved
failed handle (`make_exception_future`); a failed handle from the action makes
`then` skip the continuation and propagate the failure; a successful one
re-enters `keep_doing` through the continuation.  Returns
`(number of invocations, outcome)` — `none` when `fuel` invocations did not
bring a failure. -/
def keep_doing (acts : Nat → Act ε) : Nat → Nat → Option (Nat × CombOutcome ε)
  | 0, _ => none
  | fuel + 1, i =>
    match acts i with
    | .throwSync e => some (i + 1, .result ⟨true, .error e⟩)
    | .ret f =>
      match f.res with
      | .error e => some (i + 1, .result ⟨f.avail, .error e⟩)
      | .ok _ =>
        match keep_doing acts fuel (i + 1) with
        | none => none
        | some (n, .result g) => some (n, .result ⟨f.avail && g.avail, g.res⟩)
        | some (n, o) => some (n, o)

/-! ## when_all

```cpp
template <>
inline future<std::tuple<>>
when_all() {
    return make_ready_future<std::tuple<>>();
}

template <typename Future, typename... Rest>
inline future<std::tuple<Future, Rest...>>
when_all(Future&& fut, Rest&&... rest) {
    return std::move(fut).then_wrapped(
            [rest = std::make_tuple(std::move(rest)...)] (Future&& fut) mutable {
        return apply(do_when_all(), std::move(rest)).then_wrapped(
                [fut = std::move(fut)] (future<std::tuple<Rest...>>&& rest) mutable {
            return make_ready_future<std::tuple<Future, Rest...>>(
                    std::tuple_cat(std::make_tuple(std::move(fut)), std::get<0>(rest.get())));
        });
    });
}
```

The heterogeneous parameter pack of `future` arguments is embedded as a
`List` of handles of one value type (the recursion structure — peel the first
handle, recurse on the rest, cons the resolved first handle onto the
recursive tuple — is identical); the output tuple becomes a list of handles.
`rest.get()` extracts the recursive result unguarded: if that handle had
failed, the extraction would throw inside the `then_wrapped` continuation and
the throw would become a failed handle — the `.error` branch below. -/
def when_all : List (Fut ε α) → Fut ε (List (Fut ε α))
  | [] => make_ready_future []
  | f :: rest =>
    thenWrapped f fun fr =>
      thenWrapped (when_all rest) fun restf =>
        match restf.res with
        | .error e => ⟨true, .error e⟩          -- rest.get() threw
        | .ok l => make_ready_future (fr :: l)

/-! ## Theorems -/

/-- `when_all` over any list of handles: available exactly when every input
is, and its eventual result is always the successful list of the inputs'
resolved copies, in order. -/
theorem when_all_eq (fs : List (Fut ε α)) :
    when_all fs = ⟨fs.all (fun f => f.avail), .ok (fs.map resolvedCopy)⟩ := by
  induction fs with
  | nil => rfl
  | cons f rest ih =>
    simp [when_all, thenWrapped, ih, resolvedCopy, make_ready_future]

/-- C3: for every fixed list of input handles, `when_all` resolves — and is
already resolved exactly when every input is — to the ordered tuple whose
i-th slot is the i-th input's original handle, resolved, with its success
value or failure preserved unchanged; with zero inputs it is immediately
resolved to the empty tuple. -/
theorem when_all_preserves_slots (fs : List (Fut ε α)) :
    (when_all fs).res = .ok (fs.map resolvedCopy)
      ∧ (∀ i : Nat, ∀ h : i < fs.length,
          (fs.map resolvedCopy).get ⟨i, by simpa using h⟩
            = ⟨true, (fs.get ⟨i, h⟩).res⟩)
      ∧ ((when_all fs).avail = true ↔ ∀ f ∈ fs, f.avail = true)
      ∧ when_all ([] : List (Fut ε α)) = ⟨true, .ok []⟩ := by
  refine ⟨by rw [when_all_eq], fun i h => by simp [resolvedCopy], ?_, rfl⟩
  rw [when_all_eq]
  simp [List.all_eq_true]

theorem when_all_preserves_slots_witness :
    (when_all [(⟨false, .error 3⟩ : Fut Nat Nat), ⟨true, .ok 11⟩]).res
        = .ok ([⟨false, .error 3⟩, ⟨true, .ok 11⟩].map resolvedCopy)
      ∧ (∀ i : Nat, ∀ h : i < ([(⟨false, .error 3⟩ : Fut Nat Nat), ⟨true, .ok 11⟩]).length,
          (([(⟨false, .error 3⟩ : Fut Nat Nat), ⟨true, .ok 11⟩]).map resolvedCopy).get
              ⟨i, by simpa using h⟩
            = ⟨true, (([(⟨false, .error 3⟩ : Fut Nat Nat), ⟨true, .ok 11⟩]).get ⟨i, h⟩).res⟩)
      ∧ ((when_all [(⟨false, .error 3⟩ : Fut Nat Nat), ⟨true, .ok 11⟩]).avail = true ↔
          ∀ f ∈ [(⟨false, .error 3⟩ : Fut Nat Nat), ⟨true, .ok 11⟩], f.avail = true)
      ∧ when_all ([] : List (Fut Nat Nat)) = ⟨true, .ok []⟩ :=
  when_all_preserves_slots [⟨false, .error 3⟩, ⟨true, .ok 11⟩]

/-- C9: the aggregate handle of `when_all` itself always resolves to success
(a failed input occupies its slot; it never fails the aggregate), which is
what keeps the unguarded `std::get<0>(rest.get())` on the recursive
sub-result from ever throwing. -/
theorem when_all_never_fails (fs : List (Fut ε α)) :
    ∃ l, (when_all fs).res = .ok l := by
  rw [when_all_eq]
  exact ⟨_, rfl⟩

/-- C8: over the empty sequence, `do_for_each` and `parallel_for_each` both
return an already-resolved successful handle and invoke the action on
nothing. -/
theorem empty_sequence_ready_success (act : σ → Act ε) :
    do_for_each act ([] : List σ) = ([], .result ⟨true, .ok ()⟩)
      ∧ parallel_for_each act ([] : List σ) = ([], .result ⟨true, .ok ()⟩) :=
  ⟨rfl, rfl⟩

/-- Concrete action for the `do_for_each` failure-dropping run: element `0`'s
invocation returns an already-resolved failed handle (error `9`), every other
element an already-resolved successful handle. -/
def availFailAct : Nat → Act Nat := fun x =>
  if x = 0 then .ret ⟨true, .error 9⟩ else .ret ⟨true, .ok ()⟩

/-- C1: evaluation of `do_for_each` at the failing input.  With elements
`[0, 1]` and an action whose handle is already resolved to failure on element
`0`, the code invokes the action on element `1` as well and the aggregate
resolves to success — the loop checks only `available()`, never `failed()`,
so an already-available failure is silently dropped, contradicting the claim
that iteration stops at `e0` and the aggregate carries `e0`'s failure. -/
theorem do_for_each_drops_available_failure :
    do_for_each availFailAct [0, 1] = ([0, 1], .result ⟨true, .ok ()⟩) := rfl

/-- The loop of `parallel_for_each`, for any running join `ret`: when every
invocation returns a handle, every element is invoked in program order, a
handle is returned, and its result is success exactly when the join and all
actions succeeded; any failure it carries is the join's or some action's. -/
theorem parallel_for_each_go_spec (act : σ → Act ε) (xs : List σ) (ret : Fut ε Unit)
    (hall : ∀ x ∈ xs, (act x).isRet = true) :
    (parallel_for_each_go act xs ret).1 = xs ∧
    ∃ f, (parallel_for_each_go act xs ret).2 = .result f ∧
      (f.res = .ok () ↔ (ret.res = .ok () ∧ ∀ x ∈ xs, (act x).resOf = some (.ok ()))) ∧
      (∀ e, f.res = .error e →
        (ret.res = .error e ∨ ∃ x ∈ xs, (act x).resOf = some (.error e))) := by
  induction xs generalizing ret with
  | nil =>
    refine ⟨rfl, ret, rfl, ?_, fun e he => .inl he⟩
    constructor
    · exact fun h => ⟨h, fun x hx => absurd hx (List.not_mem_nil x)⟩
    · exact fun h => h.1
  | cons x xs ih =>
    have hx : (act x).isRet = true := hall x (List.mem_cons_self x xs)
    obtain ⟨g, hg⟩ : ∃ g, act x = .ret g := by
      cases h : act x with
      | throwSync e => rw [h] at hx; exact absurd hx (by simp [Act.isRet])
      | ret g => exact ⟨g, rfl⟩
    have hxs : ∀ y ∈ xs, (act y).isRet = true :=
      fun y hy => hall y (List.mem_cons_of_mem x hy)
    obtain ⟨htr, f, hf, hok, herr⟩ := ih (fthen g fun _ => ret) hxs
    refine ⟨?_, f, ?_, ?_, ?_⟩
    · simp [parallel_for_each_go, hg, htr]
    · simp [parallel_for_each_go, hg, hf]
    · rw [hok]
      have hres : (fthen g fun _ => ret).res = .ok () ↔ (g.res = .ok () ∧ ret.res = .ok ()) := by
        cases hr : g.res with
        | error e => simp [fthen, hr]
        | ok u => simp [fthen, hr]
      rw [hres]
      constructor
      · rintro ⟨⟨hgok, hrok⟩, hrest⟩
        refine ⟨hrok, fun y hy => ?_⟩
        rcases List.mem_cons.mp hy with h | h
        · subst h; simp [hg, Act.resOf, hgok]
        · exact hrest y h
      · rintro ⟨hrok, hboth⟩
        have hgok : g.res = .ok () := by
          have := hboth x (List.mem_cons_self x xs)
          simpa [hg, Act.resOf] using this
        exact ⟨⟨hgok, hrok⟩, fun y hy => hboth y (List.mem_cons_of_mem x hy)⟩
    · intro e he
      rcases herr e he with h | ⟨y, hy, hres⟩
      · by_cases hg' : ∃ u, g.res = .ok u
        · obtain ⟨u, hu⟩ := hg'
          simp only [fthen, hu] at h
          exact .inl h
        · cases hr : g.res with
          | ok u => exact absurd ⟨u, hr⟩ hg'
          | error e' =>
            simp only [fthen, hr] at h
            cases h
            exact .inr ⟨x, List.mem_cons_self x xs, by simp [hg, Act.resOf, hr]⟩
      · exact .inr ⟨y, List.mem_cons_of_mem x hy, hres⟩

/-- C2: when every invocation returns a handle (no synchronous throw — the
claim assumes every element yields an eventually-resolving handle),
`parallel_for_each` invokes the action on every element of the sequence in
program order while building — not yet waiting on — the join, and the handle
it returns succeeds exactly when every action's handle succeeded; any failure
it carries is the failure of one of the actions. -/
theorem parallel_for_each_spec (act : σ → Act ε) (xs : List σ)
    (hall : ∀ x ∈ xs, (act x).isRet = true) :
    (parallel_for_each act xs).1 = xs ∧
    ∃ f, (parallel_for_each act xs).2 = .result f ∧
      (f.res = .ok () ↔ ∀ x ∈ xs, (act x).resOf = some (.ok ())) ∧
      (∀ e, f.res = .error e → ∃ x ∈ xs, (act x).resOf = some (.error e)) := by
  obtain ⟨htr, f, hf, hok, herr⟩ :=
    parallel_for_each_go_spec act xs (make_ready_future ()) hall
  refine ⟨htr, f, hf, ?_, ?_⟩
  · rw [hok]
    simp [make_ready_future]
  · intro e he
    rcases herr e he with h | h
    · exact absurd h (by simp [make_ready_future])
    · exact h

/-- Concrete action for the `parallel_for_each` witness run: element `1`'s
invocation returns a not-yet-resolved handle that eventually fails with
error `7`; the others return already-resolved successful handles. -/
def mixedAct : Nat → Act Nat := fun x =>
  if x = 1 then .ret ⟨false, .error 7⟩ else .ret ⟨true, .ok ()⟩

theorem parallel_for_each_spec_witness :
    (∀ x ∈ [0, 1, 2], (mixedAct x).isRet = true) ∧
    ((parallel_for_each mixedAct [0, 1, 2]).1 = [0, 1, 2] ∧
     ∃ f, (parallel_for_each mixedAct [0, 1, 2]).2 = .result f ∧
       (f.res = .ok () ↔ ∀ x ∈ [0, 1, 2], (mixedAct x).resOf = some (.ok ())) ∧
       (∀ e, f.res = .error e → ∃ x ∈ [0, 1, 2], (mixedAct x).resOf = some (.error e))) :=
  ⟨by decide, parallel_for_each_spec mixedAct [0, 1, 2] (by decide)⟩

/-- The loop of `do_until` with an always-succeeding action and a predicate
that turns true at counter `k`: from any counter `i ≤ k`, in either context,
it stops at counter `k` having written exactly one success. -/
theorem do_until_continued_counts (cond : Nat → Bool) (acts : Nat → Act ε) (av : Nat → Bool)
    (k : Nat) (hk : cond k = true) (hc : ∀ i, i < k → cond i = false)
    (ha : ∀ i, acts i = .ret ⟨av i, .ok ()⟩) :
    ∀ fuel i sync, i ≤ k → k - i < fuel →
      do_until_continued cond acts fuel i sync = some (k, [.success], none) := by
  intro fuel
  induction fuel with
  | zero => intro i sync hik hlt; omega
  | succ fuel ih =>
    intro i sync hik hlt
    by_cases hi : i = k
    · subst hi
      simp [do_until_continued, hk]
    · have hlt' : i < k := lt_of_le_of_ne hik hi
      simp only [do_until_continued, hc i hlt', ha i, Bool.false_eq_true, if_false]
      cases hav : av i with
      | true => simpa [hav] using ih (i + 1) sync hlt' (by omega)
      | false => simpa [hav] using ih (i + 1) false hlt' (by omega)

/-- C4: for a predicate false on its first `k` evaluations and true on the
`(k+1)`-th, and an always-succeeding action (whichever invocations happen to
be already resolved), `do_until` invokes the action exactly `k` times and its
handle resolves to success; with `k = 0` the action is never invoked. -/
theorem do_until_invocation_count (k fuel : Nat) (cond : Nat → Bool) (acts : Nat → Act ε)
    (av : Nat → Bool) (hc : ∀ i, i < k → cond i = false) (hk : cond k = true)
    (ha : ∀ i, acts i = .ret ⟨av i, .ok ()⟩) (hfuel : k < fuel) :
    do_until fuel cond acts = some (k, .resolved (.ok ())) := by
  unfold do_until
  rw [do_until_continued_counts cond acts av k hk hc ha fuel 0 true (Nat.zero_le k) (by omega)]
  rfl

/-- Always-succeeding action whose handles are already resolved. -/
def alwaysOkAct : Nat → Act Nat := fun _ => .ret ⟨true, .ok ()⟩

theorem do_until_invocation_count_witness :
    ((∀ i, i < 2 → decide (2 ≤ i) = false) ∧ decide (2 ≤ 2) = true ∧
      (∀ i : Nat, alwaysOkAct i = .ret ⟨true, .ok ()⟩) ∧ 2 < 3) ∧
    do_until 3 (fun i => decide (2 ≤ i)) alwaysOkAct = some (2, .resolved (.ok ())) :=
  ⟨⟨fun i hi => decide_eq_false (by omega), by decide, fun _ => rfl, by decide⟩,
   do_until_invocation_count 2 3 (fun i => decide (2 ≤ i)) alwaysOkAct (fun _ => true)
     (fun i hi => decide_eq_false (by omega)) (by decide) (fun _ => rfl) (by decide)⟩

/-- C5: in every run of `do_until_continued` (from any counter, in either
context), the sink is written at most once, and any write is either the
single success written when the predicate turned true, or the failure of the
first failing invocation — every earlier invocation returned a successful
handle — forwarded unchanged from its (available) handle; never both. -/
theorem do_until_sink_written_once (cond : Nat → Bool) (acts : Nat → Act ε) :
    ∀ (fuel i : Nat) (sync : Bool) (n : Nat) (ws : List (SinkWrite ε)) (esc : Option ε),
      do_until_continued cond acts fuel i sync = some (n, ws, esc) →
      ws.length ≤ 1 ∧
      (ws = [] ∨
       (ws = [.success] ∧ cond n = true) ∨
       (∃ e, ws = [.failure e] ∧ acts (n - 1) = .ret ⟨true, .error e⟩ ∧
         ∀ j, i ≤ j → j + 1 < n → ∃ b, acts j = .ret ⟨b, .ok ()⟩)) := by
  intro fuel
  induction fuel with
  | zero => intro i sync n ws esc h; exact absurd h (by simp [do_until_continued])
  | succ fuel ih =>
    intro i sync n ws esc h
    rw [do_until_continued] at h
    by_cases hci : cond i = true
    · rw [if_pos hci] at h
      simp only [Option.some.injEq, Prod.mk.injEq] at h
      obtain ⟨hn, hws, -⟩ := h
      subst hn
      exact ⟨by simp [← hws], .inr (.inl ⟨hws.symm, hci⟩)⟩
    · rw [if_neg hci] at h
      have hci' : cond i = false := by simpa using hci
      cases hai : acts i with
      | throwSync e =>
        simp [hai] at h
        obtain ⟨-, hws, -⟩ := h
        exact ⟨by simp [hws], .inl hws⟩
      | ret f =>
        obtain ⟨fav, fres⟩ := f
        cases fav with
        | true =>
          cases fres with
          | error e =>
            simp [hai] at h
            obtain ⟨hn, hws, -⟩ := h
            subst hn
            refine ⟨by simp [← hws], .inr (.inr ⟨e, hws.symm, ?_, ?_⟩)⟩
            · simpa using hai
            · intro j hj hj2
              omega
          | ok u =>
            cases u
            simp [hai] at h
            obtain ⟨len, disj⟩ := ih (i + 1) sync n ws esc h
            refine ⟨len, ?_⟩
            rcases disj with h1 | h2 | ⟨e, hws, hfail, hearlier⟩
            · exact .inl h1
            · exact .inr (.inl h2)
            · refine .inr (.inr ⟨e, hws, hfail, fun j hj hj2 => ?_⟩)
              rcases Nat.eq_or_lt_of_le hj with rfl | hj'
              · exact ⟨true, hai⟩
              · exact hearlier j hj' hj2
        | false =>
          cases fres with
          | ok u =>
            cases u
            simp [hai] at h
            obtain ⟨len, disj⟩ := ih (i + 1) false n ws esc h
            refine ⟨len, ?_⟩
            rcases disj with h1 | h2 | ⟨e, hws, hfail, hearlier⟩
            · exact .inl h1
            · exact .inr (.inl h2)
            · refine .inr (.inr ⟨e, hws, hfail, fun j hj hj2 => ?_⟩)
              rcases Nat.eq_or_lt_of_le hj with rfl | hj'
              · exact ⟨false, hai⟩
              · exact hearlier j hj' hj2
          | error e =>
            simp [hai] at h
            obtain ⟨-, hws, -⟩ := h
            exact ⟨by simp [hws], .inl hws⟩

theorem do_until_sink_written_once_witness :
    (do_until_continued (fun i => decide (1 ≤ i)) alwaysOkAct 5 0 true
        = some (1, [.success], none)) ∧
    (([SinkWrite.success] : List (SinkWrite Nat)).length ≤ 1 ∧
      (([SinkWrite.success] : List (SinkWrite Nat)) = [] ∨
       (([SinkWrite.success] : List (SinkWrite Nat)) = [.success] ∧ decide (1 ≤ 1) = true) ∨
       (∃ e, ([SinkWrite.success] : List (SinkWrite Nat)) = [.failure e] ∧
          alwaysOkAct (1 - 1) = .ret ⟨true, .error e⟩ ∧
          ∀ j, 0 ≤ j → j + 1 < 1 → ∃ b, alwaysOkAct j = .ret ⟨b, .ok ()⟩))) :=
  ⟨by decide,
   do_until_sink_written_once (fun i => decide (1 ≤ i)) alwaysOkAct 5 0 true 1
     [.success] none (by decide)⟩

/-- `keep_doing` when the `(k+1)`-th invocation (index `k` from start `i`) is
the first to return a failing handle: exactly `k + 1` invocations happen and
the returned handle carries that failure. -/
theorem keep_doing_first_failure (acts : Nat → Act ε) (e : ε) (b : Bool) :
    ∀ (fuel k i : Nat),
      (∀ j, j < k → ∃ a, acts (i + j) = .ret ⟨a, .ok ()⟩) →
      acts (i + k) = .ret ⟨b, .error e⟩ → k < fuel →
      ∃ f, keep_doing acts fuel i = some (i + k + 1, .result f) ∧ f.res = .error e := by
  intro fuel
  induction fuel with
  | zero => intro k i hsucc hfail hlt; omega
  | succ fuel ih =>
    intro k i hsucc hfail hlt
    cases k with
    | zero =>
      simp only [Nat.add_zero] at hfail
      exact ⟨⟨b, .error e⟩, by simp [keep_doing, hfail], rfl⟩
    | succ k =>
      obtain ⟨a, ha⟩ := hsucc 0 (Nat.succ_pos k)
      simp only [Nat.add_zero] at ha
      have hsucc' : ∀ j, j < k → ∃ a, acts (i + 1 + j) = .ret ⟨a, .ok ()⟩ := by
        intro j hj
        obtain ⟨a', ha'⟩ := hsucc (j + 1) (by omega)
        exact ⟨a', by rw [show i + 1 + j = i + (j + 1) by omega]; exact ha'⟩
      have hfail' : acts (i + 1 + k) = .ret ⟨b, .error e⟩ := by
        rw [show i + 1 + k = i + (k + 1) by omega]
        exact hfail
      obtain ⟨g, hg, hgres⟩ := ih k (i + 1) hsucc' hfail' (by omega)
      refine ⟨⟨a && g.avail, g.res⟩, ?_, by rw [hgres]⟩
      rw [show i + (k + 1) + 1 = i + 1 + k + 1 by omega]
      simp [keep_doing, ha, hg]

/-- `keep_doing` only ever terminates with a returned handle carrying a
failure: no synchronous escape, no successful resolution. -/
theorem keep_doing_only_fails (acts : Nat → Act ε) :
    ∀ (fuel i n : Nat) (o : CombOutcome ε),
      keep_doing acts fuel i = some (n, o) →
      ∃ f, o = .result f ∧ ∃ e, f.res = .error e := by
  intro fuel
  induction fuel with
  | zero => intro i n o h; exact absurd h (by simp [keep_doing])
  | succ fuel ih =>
    intro i n o h
    rw [keep_doing] at h
    cases hai : acts i with
    | throwSync e =>
      simp [hai] at h
      exact ⟨⟨true, .error e⟩, h.2.symm, e, rfl⟩
    | ret f =>
      obtain ⟨fav, fres⟩ := f
      cases fres with
      | error e =>
        simp [hai] at h
        exact ⟨⟨fav, .error e⟩, h.2.symm, e, rfl⟩
      | ok u =>
        cases u
        simp only [hai] at h
        cases hrec : keep_doing acts fuel (i + 1) with
        | none => rw [hrec] at h; exact absurd h (by simp)
        | some r =>
          obtain ⟨m, o'⟩ := r
          obtain ⟨g, hg, e, hge⟩ := ih (i + 1) m o' hrec
          subst hg
          rw [hrec] at h
          simp only [Option.some.injEq, Prod.mk.injEq] at h
          exact ⟨⟨fav && g.avail, g.res⟩, h.2.symm, e, by simpa using hge⟩

/-- C6: for an action whose first `k` invocations return successful handles
and whose `(k+1)`-th returns a failing one, `keep_doing` invokes the action
exactly `k + 1` times and its handle resolves to that failure; and for any
action at all, a terminated `keep_doing` only ever returns a handle that
resolved to a failure — success is not a possible terminal state. -/
theorem keep_doing_spec (k fuel : Nat) (acts : Nat → Act ε) (e : ε) (b : Bool)
    (hsucc : ∀ j, j < k → ∃ a, acts j = .ret ⟨a, .ok ()⟩)
    (hfail : acts k = .ret ⟨b, .error e⟩) (hfuel : k < fuel) :
    (∃ f, keep_doing acts fuel 0 = some (k + 1, .result f) ∧ f.res = .error e) ∧
    (∀ (acts2 : Nat → Act ε) (fuel2 n : Nat) (o : CombOutcome ε),
      keep_doing acts2 fuel2 0 = some (n, o) →
      ∃ g, o = .result g ∧ ∃ e2, g.res = .error e2) := by
  constructor
  · have := keep_doing_first_failure acts e b fuel k 0
      (by simpa using hsucc) (by simpa using hfail) hfuel
    simpa using this
  · intro acts2 fuel2 n o h
    exact keep_doing_only_fails acts2 fuel2 0 n o h

/-- Action for the `keep_doing` witness run: three successful invocations
(the middle one deferred), then a failing handle on invocation index 3. -/
def failAt3Act : Nat → Act Nat := fun i =>
  if i = 3 then .ret ⟨true, .error 8⟩
  else if i = 1 then .ret ⟨false, .ok ()⟩ else .ret ⟨true, .ok ()⟩

theorem keep_doing_spec_witness :
    ((∀ j, j < 3 → ∃ a, failAt3Act j = .ret ⟨a, .ok ()⟩) ∧
      failAt3Act 3 = .ret ⟨true, .error 8⟩ ∧ 3 < 5) ∧
    ((∃ f, keep_doing failAt3Act 5 0 = some (3 + 1, .result f) ∧ f.res = .error 8) ∧
     (∀ (acts2 : Nat → Act Nat) (fuel2 n : Nat) (o : CombOutcome Nat),
       keep_doing acts2 fuel2 0 = some (n, o) →
       ∃ g, o = .result g ∧ ∃ e2, g.res = .error e2)) :=
  ⟨⟨fun j hj => by interval_cases j <;> exact ⟨_, rfl⟩, rfl, by omega⟩,
   keep_doing_spec 3 5 failAt3Act 8 true
     (fun j hj => by interval_cases j <;> exact ⟨_, rfl⟩) rfl (by omega)⟩

/-- C7: a synchronous exception thrown by starting the action is caught at
`keep_doing`'s boundary (`try`/`catch` + `make_exception_future`): the entry
point returns an already-resolved failed handle carrying that exception
instead of letting it escape. -/
theorem keep_doing_catches_sync_throw (acts : Nat → Act ε) (e : ε) (fuel : Nat)
    (h : acts 0 = .throwSync e) :
    keep_doing acts (fuel + 1) 0 = some (1, .result ⟨true, .error e⟩) := by
  simp [keep_doing, h]

/-- Action whose very first invocation throws synchronously. -/
def throwAt0Act : Nat → Act Nat := fun i =>
  if i = 0 then .throwSync 4 else .ret ⟨true, .ok ()⟩

theorem keep_doing_catches_sync_throw_witness :
    throwAt0Act 0 = .throwSync 4 ∧
    keep_doing throwAt0Act 10 0 = some (1, .result ⟨true, .error 4⟩) :=
  ⟨rfl, keep_doing_catches_sync_throw throwAt0Act 4 9 rfl⟩

/-- The walk of `do_for_each`, still in the entry call's synchronous context:
after any run of elements whose handles are already resolved and successful,
a synchronously-throwing invocation escapes. -/
theorem do_for_each_go_sync_throw (act : σ → Act ε) (x : σ) (e : ε)
    (hx : act x = .throwSync e) :
    ∀ (pre post : List σ), (∀ y ∈ pre, act y = .ret ⟨true, .ok ()⟩) →
      (do_for_each_go act true (pre ++ x :: post)).2 = .syncThrow e := by
  intro pre
  induction pre with
  | nil => intro post _; simp [do_for_each_go, hx]
  | cons y pre ih =>
    intro post hall
    have hy := hall y (List.mem_cons_self y pre)
    simp only [List.cons_append, do_for_each_go, hy]
    exact ih post fun z hz => hall z (List.mem_cons_of_mem y hz)

/-- The loop of `parallel_for_each`: after any run of handle-returning
invocations, a synchronously-throwing invocation escapes, whatever the
running join is. -/
theorem parallel_for_each_go_sync_throw (act : σ → Act ε) (x : σ) (e : ε)
    (hx : act x = .throwSync e) :
    ∀ (pre post : List σ) (ret : Fut ε Unit), (∀ y ∈ pre, (act y).isRet = true) →
      (parallel_for_each_go act (pre ++ x :: post) ret).2 = .syncThrow e := by
  intro pre
  induction pre with
  | nil => intro post ret _; simp [parallel_for_each_go, hx]
  | cons y pre ih =>
    intro post ret hall
    have hy := hall y (List.mem_cons_self y pre)
    obtain ⟨g, hg⟩ : ∃ g, act y = .ret g := by
      cases h : act y with
      | throwSync e' => rw [h] at hy; exact absurd hy (by simp [Act.isRet])
      | ret g => exact ⟨g, rfl⟩
    simp only [List.cons_append, parallel_for_each_go, hg]
    exact ih post _ fun z hz => hall z (List.mem_cons_of_mem y hz)

/-- The loop of `do_until`, synchronous context: while the predicate stays
false over already-resolved successful invocations, a synchronously-throwing
invocation at counter `k` escapes, with nothing written to the sink. -/
theorem do_until_continued_sync_throw (cond : Nat → Bool) (acts : Nat → Act ε)
    (k : Nat) (e : ε) (hc : ∀ i, i ≤ k → cond i = false)
    (ha : ∀ i, i < k → acts i = .ret ⟨true, .ok ()⟩) (hk : acts k = .throwSync e) :
    ∀ fuel i, i ≤ k → k - i < fuel →
      do_until_continued cond acts fuel i true = some (k + 1, [], some e) := by
  intro fuel
  induction fuel with
  | zero => intro i hik hlt; omega
  | succ fuel ih =>
    intro i hik hlt
    by_cases hi : i = k
    · subst hi
      simp [do_until_continued, hc i le_rfl, hk]
    · have hlt' : i < k := lt_of_le_of_ne hik hi
      simp only [do_until_continued, hc i hik, Bool.false_eq_true, if_false, ha i hlt']
      simpa using ih (i + 1) hlt' (by omega)

/-- C10: unlike `keep_doing`, none of `do_until`, `do_for_each`,
`parallel_for_each` guards the action invocation with a `try`/`catch`: a
synchronous exception thrown by an invocation reached in the entry call's
synchronous phase propagates out of the combinator's entry point instead of
being converted into a failed handle. -/
theorem sync_throw_escapes_entry {σ ε : Type} :
    (∀ (act : σ → Act ε) (pre post : List σ) (x : σ) (e : ε),
      (∀ y ∈ pre, act y = .ret ⟨true, .ok ()⟩) → act x = .throwSync e →
      (do_for_each act (pre ++ x :: post)).2 = .syncThrow e) ∧
    (∀ (act : σ → Act ε) (pre post : List σ) (x : σ) (e : ε),
      (∀ y ∈ pre, (act y).isRet = true) → act x = .throwSync e →
      (parallel_for_each act (pre ++ x :: post)).2 = .syncThrow e) ∧
    (∀ (cond : Nat → Bool) (acts : Nat → Act ε) (k : Nat) (e : ε) (fuel : Nat),
      (∀ i, i ≤ k → cond i = false) → (∀ i, i < k → acts i = .ret ⟨true, .ok ()⟩) →
      acts k = .throwSync e → k < fuel →
      do_until fuel cond acts = some (k + 1, .thrown e)) := by
  refine ⟨?_, ?_, ?_⟩
  · intro act pre post x e hall hx
    exact do_for_each_go_sync_throw act x e hx pre post hall
  · intro act pre post x e hall hx
    exact parallel_for_each_go_sync_throw act x e hx pre post (make_ready_future ()) hall
  · intro cond acts k e fuel hc ha hk hfuel
    unfold do_until
    rw [do_until_continued_sync_throw cond acts k e hc ha hk fuel 0 (Nat.zero_le k) (by omega)]
    rfl

theorem sync_throw_escapes_entry_witness :
    ((∀ y ∈ [1], throwAt0Act y = .ret ⟨true, .ok ()⟩) ∧
      (∀ y ∈ [1], (throwAt0Act y).isRet = true) ∧
      throwAt0Act 0 = .throwSync 4 ∧
      (∀ i, i ≤ 0 → (fun _ : Nat => false) i = false) ∧
      (∀ i, i < 0 → throwAt0Act i = .ret ⟨true, .ok ()⟩) ∧ 0 < 1) ∧
    (do_for_each throwAt0Act ([1] ++ 0 :: [2])).2 = .syncThrow 4 ∧
    (parallel_for_each throwAt0Act ([1] ++ 0 :: [2])).2 = .syncThrow 4 ∧
    do_until 1 (fun _ => false) throwAt0Act = some (0 + 1, .thrown 4) :=
  ⟨⟨by decide, by decide, rfl, fun i hi => rfl, fun i hi => absurd hi (by omega), by omega⟩,
   (sync_throw_escapes_entry (σ := Nat) (ε := Nat)).1 throwAt0Act [1] [2] 0 4 (by decide) rfl,
   (sync_throw_escapes_entry (σ := Nat) (ε := Nat)).2.1 throwAt0Act [1] [2] 0 4 (by decide) rfl,
   (sync_throw_escapes_entry (σ := Nat) (ε := Nat)).2.2 (fun _ => false) throwAt0Act 0 4 1
     (fun i hi => rfl) (fun i hi => absurd hi (by omega)) rfl (by omega)⟩

end FutureUtil
